import Mathlib

/-!
Verification of the Supervisor registry/reconciler of gosuv (src/web.go).

The registry state (`Supervisor`), its reconciliation entry points
(`stopAndWait`, `addOrUpdateProgram`, `readConfigFromDB`, `loadDB`, `saveDB`)
and the snapshot helper (`programs`) are shallow embeddings of the Go code in
src/web.go.  Go maps keyed by program name are embedded as association lists
with Go map semantics (unique keys; assignment replaces in place, delete
removes the key).  Broadcast events and controller operations issued during a
call are collected in an explicit `Effects` value.  File reading, YAML
marshalling/unmarshalling and the wall clock are external collaborators and
enter as explicit parameters.

`Program.Check`, the process FSM and `NewProcess` are defined in repository
files outside src/web.go; they are modelled from the spec where noted.
-/

namespace Gosuv

/-- Program spec record, fields as read/written by src/web.go (hAddProgram). -/
structure Program where
  name : String
  command : String
  dir : String
  startAuto : Bool
  startRetries : Int
  deriving DecidableEq, Repr

/-- The Go zero value of `Program`, produced by indexing a map at a missing key. -/
def Program.zero : Program := ⟨"", "", "", false, 0⟩

/-- Modelled from the spec: `Program.Check` is defined outside src/web.go.
Spec §3: validated by a Check() contract: name and command non-empty,
retries ≥ 0 (the workingDir default is a field rewrite that no claim here
depends on). -/
def Program.check (p : Program) : Except String Unit :=
  if p.name = "" then Except.error "program name empty"
  else if p.command = "" then Except.error "program command empty"
  else if p.startRetries < 0 then Except.error "start retries negative"
  else Except.ok ()

/-- Modelled from the spec: the process FSM states, §4.2. -/
inductive FSMState where
  | stopped | starting | running | stopping | backoff | fatal
  deriving DecidableEq, Repr

/-- Modelled from the spec: the two controller events the registry issues. -/
inductive PEvent where
  | startEvent | stopEvent
  deriving DecidableEq, Repr

/-- Modelled from the spec: the slice of a ProcessController that the registry
observes — its name, its FSM state, and the spec it was constructed from. -/
structure Process where
  name : String
  state : FSMState
  pg : Program
  deriving DecidableEq, Repr

/-- Modelled from the spec, §4.2: IsRunning() is true exactly in
{Starting, Running}. -/
def Process.isRunning (p : Process) : Bool :=
  match p.state with
  | FSMState.starting => true
  | FSMState.running => true
  | _ => false

/-- Modelled from the spec, §4.1: a freshly constructed controller starts in
the Stopped state, named after and holding the given spec. -/
def NewProcess (pg : Program) : Process :=
  ⟨pg.name, FSMState.stopped, pg⟩

/-! ### Go map semantics over association lists -/

/-- Go map lookup `m[k]` (the `, ok` form). -/
def alookup {α : Type} : List (String × α) → String → Option α
  | [], _ => none
  | (k', v) :: t, k => if k' = k then some v else alookup t k

/-- Go map assignment `m[k] = v`: replaces in place if the key is present,
otherwise appends a new entry. -/
def ainsert {α : Type} : List (String × α) → String → α → List (String × α)
  | [], k, v => [(k, v)]
  | (k', v') :: t, k, v =>
      if k' = k then (k, v) :: t else (k', v') :: ainsert t k v

/-- Go map `delete(m, k)`. -/
def aerase {α : Type} (m : List (String × α)) (k : String) : List (String × α) :=
  m.filter (fun e => e.1 ≠ k)

/-- The key sequence of a map. -/
def akeys {α : Type} (m : List (String × α)) : List String :=
  m.map (fun e => e.1)

/-! ### The Supervisor registry -/

/-- The registry state of `Supervisor` (src/web.go lines 34-42): the
insertion-ordered name sequence, the desired-spec map and the live-controller
map.  The mutex, config directory and broadcaster object are not part of the
value state. -/
structure Supervisor where
  names : List String
  pgMap : List (String × Program)
  procMap : List (String × Process)
  deriving DecidableEq, Repr

/-- The empty registry, as built by newSupervisorHandler. -/
def Supervisor.empty : Supervisor := ⟨[], [], []⟩

/-- Observable effects of one registry call: broadcast event strings (in
emission order) and controller `Operate` calls (name, event). -/
structure Effects where
  events : List String
  ops : List (String × PEvent)
  deriving DecidableEq, Repr

/-- No effects. -/
def Effects.nil : Effects := ⟨[], []⟩

/-- Sequencing of effects. -/
def Effects.app (a b : Effects) : Effects :=
  ⟨a.events ++ b.events, a.ops ++ b.ops⟩

/-- Result of a registry call: the Go error return (`none` = nil), the
post-state, and the effects emitted during the call. -/
structure RegResult where
  err : Option String
  sup : Supervisor
  eff : Effects
  deriving DecidableEq, Repr

/-- `Supervisor.programs` (src/web.go lines 44-50): the stored specs listed in
name-sequence order; a missing key yields the Go zero value. -/
def Supervisor.programs (s : Supervisor) : List Program :=
  s.names.map (fun n => (alookup s.pgMap n).getD Program.zero)

/-- `Supervisor.stopAndWait` (src/web.go lines 88-111), at registry
granularity: an unregistered name returns the error "No such program" with no
effect; a registered controller that is not running returns nil immediately
with no effect; otherwise a StopEvent is issued and the call blocks until the
controller is no longer running — its eventual non-running state is recorded
as Stopped (the wait loop itself is modelled separately by `stopWaitLoop`). -/
def Supervisor.stopAndWait (s : Supervisor) (name : String) : RegResult :=
  match alookup s.procMap name with
  | none => ⟨some "No such program", s, Effects.nil⟩
  | some p =>
      if p.isRunning then
        ⟨none,
         { s with procMap := ainsert s.procMap name { p with state := FSMState.stopped } },
         ⟨[], [(name, PEvent.stopEvent)]⟩⟩
      else
        ⟨none, s, Effects.nil⟩

/-- `Supervisor.addOrUpdateProgram` (src/web.go lines 113-145).  The update
branch spawns a goroutine (lines 127-136); its body is modelled here as run to
completion (the completed update), while its action trace relative to the
registry lock is modelled separately by `asyncUpdateTrace`.  In Go, a name
present in pgMap but absent from procMap would make `origProc.IsRunning()`
dereference nil and panic; that panic is modelled as an error result. -/
def Supervisor.addOrUpdateProgram (s : Supervisor) (pg : Program) : RegResult :=
  match pg.check with
  | Except.error e => ⟨some e, s, Effects.nil⟩
  | Except.ok _ =>
    match alookup s.pgMap pg.name with
    | some origPg =>
        if origPg = pg then ⟨none, s, Effects.nil⟩
        else
          match alookup s.procMap pg.name with
          | none => ⟨some "nil pointer dereference", s, ⟨[pg.name ++ " update"], []⟩⟩
          | some origProc =>
              let isRunning := origProc.isRunning
              let r1 := s.stopAndWait origProc.name
              let s2 := { r1.sup with
                            procMap := ainsert r1.sup.procMap pg.name (NewProcess pg),
                            pgMap := ainsert r1.sup.pgMap pg.name pg }
              let startOps : List (String × PEvent) :=
                if isRunning then [(pg.name, PEvent.startEvent)] else []
              ⟨none, s2,
               ⟨[pg.name ++ " update"] ++ r1.eff.events, r1.eff.ops ++ startOps⟩⟩
    | none =>
        ⟨none,
         { s with names := s.names ++ [pg.name],
                  pgMap := ainsert s.pgMap pg.name pg,
                  procMap := ainsert s.procMap pg.name (NewProcess pg) },
         ⟨[pg.name ++ " added"], []⟩⟩

/-- The duplicate-name scan of readConfigFromDB (src/web.go lines 159-165):
returns the first name already seen in `visited`. -/
def findDup : List String → List String → Option String
  | _, [] => none
  | visited, n :: ns =>
      if n ∈ visited then some n else findDup (n :: visited) ns

/-- `Supervisor.readConfigFromDB` (src/web.go lines 150-167).  `fileData` is
the ReadFile outcome (`none` = read error, which the code replaces by empty
data); `unmarshal` is the external YAML decoder. -/
def readConfigFromDB (fileData : Option String)
    (unmarshal : String → Except String (List Program)) :
    Except String (List Program) :=
  match unmarshal (fileData.getD "") with
  | Except.error e => Except.error e
  | Except.ok pgs =>
      match findDup [] (pgs.map Program.name) with
      | some d => Except.error ("Duplicated program name: " ++ d)
      | none => Except.ok pgs

/-- The add-or-update loop of loadDB (src/web.go lines 177-183): for each
desired spec, append its name and call addOrUpdateProgram, ignoring its
error return. -/
def loadLoop : Supervisor → Effects → List Program → Supervisor × Effects
  | s, eff, [] => (s, eff)
  | s, eff, pg :: rest =>
      let r := s.addOrUpdateProgram pg
      loadLoop r.sup (eff.app r.eff) rest

/-- The delete loop of loadDB (src/web.go lines 186-196): for each stored spec
not named in `visited`, stop-and-wait it (error ignored), delete it from both
maps and broadcast "<name> deleted".  `snapshot` is the pgMap being ranged
over. -/
def deleteLoop (visited : List String) :
    Supervisor → Effects → List (String × Program) → Supervisor × Effects
  | s, eff, [] => (s, eff)
  | s, eff, (_, pg) :: rest =>
      if pg.name ∈ visited then deleteLoop visited s eff rest
      else
        let r := s.stopAndWait pg.name
        let s2 := { r.sup with procMap := aerase r.sup.procMap pg.name,
                               pgMap := aerase r.sup.pgMap pg.name }
        deleteLoop visited s2
          (eff.app (r.eff.app ⟨[pg.name ++ " deleted"], []⟩)) rest

/-- `Supervisor.loadDB` (src/web.go lines 169-198): read and validate the
config, run the add-or-update loop, replace the name sequence with the desired
names, then delete every stored program not in the desired set. -/
def Supervisor.loadDB (s : Supervisor) (fileData : Option String)
    (unmarshal : String → Except String (List Program)) : RegResult :=
  match readConfigFromDB fileData unmarshal with
  | Except.error e => ⟨some e, s, Effects.nil⟩
  | Except.ok pgs =>
      let names := pgs.map Program.name
      let (s1, eff1) := loadLoop s Effects.nil pgs
      let s2 := { s1 with names := names }
      let (s3, eff3) := deleteLoop names s2 eff1 s2.pgMap
      ⟨none, s3, eff3⟩

/-! ### The stopAndWait wait loop at wakeup granularity -/

/-- One outcome of stopAndWait at wakeup granularity. -/
inductive StopWaitOutcome where
  | notFound
  | immediate
  | stoppedAt (k : Nat)
  | waiting
  deriving DecidableEq, Repr

/-- The select loop of stopAndWait (src/web.go lines 99-110): `running k` is
the value IsRunning() returns at the k-th wakeup (an event receipt or the
1-second timeout — both arms re-check identically).  Returns the first wakeup
index at which IsRunning is false, scanning `fuel` wakeups from `k`. -/
def stopWaitLoop (running : Nat → Bool) : Nat → Nat → Option Nat
  | _, 0 => none
  | k, fuel + 1 =>
      if running k then stopWaitLoop running (k + 1) fuel else some k

/-- `Supervisor.stopAndWait` at wakeup granularity (src/web.go lines 88-111):
the map lookup and the not-running fast path are as in the code; the blocking
loop is `stopWaitLoop` cut off after `fuel` wakeups (`waiting` = the loop has
not yet returned).  The second component lists the controller events issued. -/
def stopAndWaitObs (procMap : List (String × Process)) (name : String)
    (running : Nat → Bool) (fuel : Nat) :
    StopWaitOutcome × List (String × PEvent) :=
  match alookup procMap name with
  | none => (StopWaitOutcome.notFound, [])
  | some p =>
      if p.isRunning then
        match stopWaitLoop running 0 fuel with
        | some k => (StopWaitOutcome.stoppedAt k, [(name, PEvent.stopEvent)])
        | none => (StopWaitOutcome.waiting, [(name, PEvent.stopEvent)])
      else
        (StopWaitOutcome.immediate, [])

/-! ### The async update path as an action trace (registry lock) -/

/-- Primitive actions of a reconciliation code path, at the granularity of the
registry mutex. -/
inductive RegAction where
  | lockAcquire
  | lockRelease
  | stopAndWaitCall (name : String)
  | swapProcMap (name : String)
  | swapPgMap (name : String)
  | operateCall (name : String) (e : PEvent)
  deriving DecidableEq, Repr

/-- The goroutine body of the update branch of addOrUpdateProgram
(src/web.go lines 127-136), transcribed action by action: stopAndWait the old
controller, assign the new controller into procMap, assign the new spec into
pgMap, and issue StartEvent when the old controller had been running.  The
body contains no operation on the registry mutex `s.mu`. -/
def asyncUpdateTrace (name : String) (isRunning : Bool) : List RegAction :=
  [RegAction.stopAndWaitCall name, RegAction.swapProcMap name,
   RegAction.swapPgMap name]
    ++ (if isRunning then [(RegAction.operateCall name PEvent.startEvent)] else [])

/-- Effect of one action on the outstanding registry-lock count. -/
def lockStep (d : Int) (a : RegAction) : Int :=
  match a with
  | RegAction.lockAcquire => d + 1
  | RegAction.lockRelease => d - 1
  | _ => d

/-- How many registry-lock acquisitions are outstanding just before the i-th
action of a trace (Int so that unmatched releases are visible too). -/
def lockDepthAt (tr : List RegAction) (i : Nat) : Int :=
  (tr.take i).foldl lockStep 0

/-- Result of `saveDB`: the Go error return, the post-state, and the bytes
handed to WriteFile (`none` when marshalling failed before the write). -/
structure SaveResult where
  err : Option String
  sup : Supervisor
  written : Option String
  deriving DecidableEq, Repr

/-- `Supervisor.saveDB` (src/web.go lines 200-208): marshal the stored specs
in name-sequence order and write them out.  `marshal` is the external YAML
encoder; `writeOk` is the WriteFile outcome. -/
def Supervisor.saveDB (s : Supervisor)
    (marshal : List Program → Except String String) (writeOk : Bool) :
    SaveResult :=
  match marshal s.programs with
  | Except.error e => ⟨some e, s, none⟩
  | Except.ok data =>
      ⟨if writeOk then none else some "write error", s, some data⟩

/-! ### Basic lemmas about the Go-map embedding -/

theorem alookup_mem {α : Type} {m : List (String × α)} {k : String} {v : α} :
    alookup m k = some v → (k, v) ∈ m := by
  induction m with
  | nil => intro h; simp [alookup] at h
  | cons e t ih =>
      intro h
      obtain ⟨k', v'⟩ := e
      by_cases hk : k' = k
      · subst hk
        simp [alookup] at h
        subst h
        exact List.mem_cons_self _ _
      · simp [alookup, hk] at h
        exact List.mem_cons_of_mem _ (ih h)

theorem mem_akeys_of_alookup {α : Type} {m : List (String × α)} {k : String}
    {v : α} (h : alookup m k = some v) : k ∈ akeys m := by
  exact List.mem_map.mpr ⟨(k, v), alookup_mem h, rfl⟩

theorem alookup_eq_none_iff {α : Type} {m : List (String × α)} {k : String} :
    alookup m k = none ↔ k ∉ akeys m := by
  induction m with
  | nil => simp [alookup, akeys]
  | cons e t ih =>
      obtain ⟨k', v'⟩ := e
      by_cases hk : k' = k
      · subst hk
        simp [alookup, akeys]
      · simp [alookup, akeys, hk, ih, Ne.symm hk]

theorem alookup_isSome_of_mem_akeys {α : Type} {m : List (String × α)}
    {k : String} (h : k ∈ akeys m) : ∃ v, alookup m k = some v := by
  cases hl : alookup m k with
  | none => exact absurd h (alookup_eq_none_iff.mp hl)
  | some v => exact ⟨v, rfl⟩

theorem alookup_ainsert_self {α : Type} (m : List (String × α)) (k : String)
    (v : α) : alookup (ainsert m k v) k = some v := by
  induction m with
  | nil => simp [ainsert, alookup]
  | cons e t ih =>
      obtain ⟨k', v'⟩ := e
      by_cases hk : k' = k
      · simp [ainsert, hk, alookup]
      · simp [ainsert, hk, alookup, ih]

theorem akeys_ainsert {α : Type} (m : List (String × α)) (k : String) (v : α) :
    akeys (ainsert m k v) =
      if k ∈ akeys m then akeys m else akeys m ++ [k] := by
  induction m with
  | nil => simp [ainsert, akeys]
  | cons e t ih =>
      obtain ⟨k', v'⟩ := e
      by_cases hk : k' = k
      · subst hk; simp [ainsert, akeys]
      · have h1 : ainsert ((k', v') :: t) k v = (k', v') :: ainsert t k v := by
          simp [ainsert, hk]
        have h2 : akeys ((k', v') :: ainsert t k v) = k' :: akeys (ainsert t k v) := rfl
        have h3 : akeys ((k', v') :: t) = k' :: akeys t := rfl
        rw [h1, h2, ih, h3]
        by_cases hm : k ∈ akeys t
        · rw [if_pos hm, if_pos (List.mem_cons_of_mem _ hm)]
        · rw [if_neg hm, if_neg (by
            intro hc
            rcases List.mem_cons.mp hc with hc | hc
            · exact hk hc.symm
            · exact hm hc)]
          simp

theorem mem_ainsert {α : Type} {m : List (String × α)} {k : String} {v : α}
    {e : String × α} : e ∈ ainsert m k v → e = (k, v) ∨ e ∈ m := by
  induction m with
  | nil => intro h; simp [ainsert] at h; exact Or.inl h
  | cons e' t ih =>
      intro h
      obtain ⟨k', v'⟩ := e'
      by_cases hk : k' = k
      · simp [ainsert, hk] at h
        rcases h with h | h
        · exact Or.inl h
        · exact Or.inr (List.mem_cons_of_mem _ h)
      · simp [ainsert, hk] at h
        rcases h with h | h
        · exact Or.inr (by simp [h])
        · rcases ih h with h' | h'
          · exact Or.inl h'
          · exact Or.inr (List.mem_cons_of_mem _ h')

theorem mem_aerase {α : Type} {m : List (String × α)} {k : String}
    {e : String × α} : e ∈ aerase m k → e ∈ m :=
  fun h => List.mem_of_mem_filter h

theorem akeys_aerase {α : Type} (m : List (String × α)) (k : String) :
    akeys (aerase m k) = (akeys m).filter (fun x => x ≠ k) := by
  induction m with
  | nil => simp [aerase, akeys]
  | cons e t ih =>
      obtain ⟨k', v'⟩ := e
      by_cases hk : k' = k
      · subst hk
        simp [aerase, akeys, List.filter] at ih ⊢
        exact ih
      · simp [aerase, akeys, List.filter, hk] at ih ⊢
        exact ih

/-! ### Registry invariants -/

/-- The two maps carry the same key sequence and always map a name to a
spec/controller of that very name. -/
def mapsAligned (s : Supervisor) : Prop :=
  akeys s.pgMap = akeys s.procMap ∧
  (∀ e ∈ s.pgMap, e.2.name = e.1) ∧
  (∀ e ∈ s.procMap, e.2.name = e.1)

/-- Full registry well-formedness: aligned maps whose key set coincides with
the duplicate-free name sequence. -/
def Supervisor.wf (s : Supervisor) : Prop :=
  mapsAligned s ∧
  (∀ n ∈ s.names, n ∈ akeys s.pgMap) ∧
  (∀ k ∈ akeys s.pgMap, k ∈ s.names) ∧
  s.names.Nodup

theorem stopAndWait_pgMap (s : Supervisor) (name : String) :
    (s.stopAndWait name).sup.pgMap = s.pgMap := by
  unfold Supervisor.stopAndWait
  cases alookup s.procMap name with
  | none => rfl
  | some p => by_cases hp : p.isRunning <;> simp [hp]

theorem stopAndWait_names (s : Supervisor) (name : String) :
    (s.stopAndWait name).sup.names = s.names := by
  unfold Supervisor.stopAndWait
  cases alookup s.procMap name with
  | none => rfl
  | some p => by_cases hp : p.isRunning <;> simp [hp]

theorem stopAndWait_akeys_procMap (s : Supervisor) (name : String) :
    akeys (s.stopAndWait name).sup.procMap = akeys s.procMap := by
  unfold Supervisor.stopAndWait
  cases hl : alookup s.procMap name with
  | none => rfl
  | some p =>
      by_cases hp : p.isRunning
      · simp only [hp, if_true]
        rw [akeys_ainsert, if_pos (mem_akeys_of_alookup hl)]
      · simp [hp]

theorem stopAndWait_procNamed (s : Supervisor) (name : String)
    (h : ∀ e ∈ s.procMap, e.2.name = e.1) :
    ∀ e ∈ (s.stopAndWait name).sup.procMap, e.2.name = e.1 := by
  unfold Supervisor.stopAndWait
  cases hl : alookup s.procMap name with
  | none => exact h
  | some p =>
      by_cases hp : p.isRunning
      · simp only [hp, if_true]
        intro e he
        rcases mem_ainsert he with he' | he'
        · subst he'
          exact h (name, p) (alookup_mem hl)
        · exact h e he'
      · simp only [hp, if_false]
        exact h

theorem stopAndWait_aligned (s : Supervisor) (name : String)
    (h : mapsAligned s) : mapsAligned (s.stopAndWait name).sup := by
  obtain ⟨h1, h2, h3⟩ := h
  refine ⟨?_, ?_, stopAndWait_procNamed s name h3⟩
  · rw [stopAndWait_pgMap, stopAndWait_akeys_procMap]; exact h1
  · rw [stopAndWait_pgMap]; exact h2

theorem addOrUpdate_aligned (s : Supervisor) (pg : Program)
    (h : mapsAligned s) : mapsAligned (s.addOrUpdateProgram pg).sup := by
  obtain ⟨h1, h2, h3⟩ := h
  unfold Supervisor.addOrUpdateProgram
  cases pg.check with
  | error e => exact ⟨h1, h2, h3⟩
  | ok u =>
      cases hpg : alookup s.pgMap pg.name with
      | some origPg =>
          by_cases heq : origPg = pg
          · simp only [heq, if_true]; exact ⟨h1, h2, h3⟩
          · simp only [heq, if_false]
            cases hproc : alookup s.procMap pg.name with
            | none => exact ⟨h1, h2, h3⟩
            | some origProc =>
                have ha := stopAndWait_aligned s origProc.name ⟨h1, h2, h3⟩
                obtain ⟨g1, g2, g3⟩ := ha
                refine ⟨?_, ?_, ?_⟩
                · show akeys (ainsert _ pg.name pg) = akeys (ainsert _ pg.name (NewProcess pg))
                  rw [akeys_ainsert, akeys_ainsert, g1]
                · intro e he
                  rcases mem_ainsert he with he' | he'
                  · subst he'; rfl
                  · exact g2 e he'
                · intro e he
                  rcases mem_ainsert he with he' | he'
                  · subst he'; rfl
                  · exact g3 e he'
      | none =>
          refine ⟨?_, ?_, ?_⟩
          · show akeys (ainsert s.pgMap pg.name pg) =
              akeys (ainsert s.procMap pg.name (NewProcess pg))
            rw [akeys_ainsert, akeys_ainsert, h1]
          · intro e he
            rcases mem_ainsert he with he' | he'
            · subst he'; rfl
            · exact h2 e he'
          · intro e he
            rcases mem_ainsert he with he' | he'
            · subst he'; rfl
            · exact h3 e he'

theorem loadLoop_aligned (pgs : List Program) :
    ∀ (s : Supervisor) (eff : Effects), mapsAligned s →
      mapsAligned (loadLoop s eff pgs).1 := by
  induction pgs with
  | nil => intro s eff h; exact h
  | cons pg rest ih =>
      intro s eff h
      exact ih _ _ (addOrUpdate_aligned s pg h)

theorem deleteLoop_names (visited : List String)
    (L : List (String × Program)) :
    ∀ (s : Supervisor) (eff : Effects),
      (deleteLoop visited s eff L).1.names = s.names := by
  induction L with
  | nil => intro s eff; rfl
  | cons e rest ih =>
      intro s eff
      obtain ⟨k, pg⟩ := e
      by_cases hv : pg.name ∈ visited
      · simp only [deleteLoop, hv, if_true]
        exact ih _ _
      · simp only [deleteLoop, hv, if_false]
        rw [ih]
        exact stopAndWait_names s pg.name

theorem deleteLoop_aligned (visited : List String)
    (L : List (String × Program)) :
    ∀ (s : Supervisor) (eff : Effects), mapsAligned s →
      mapsAligned (deleteLoop visited s eff L).1 := by
  induction L with
  | nil => intro s eff h; exact h
  | cons e rest ih =>
      intro s eff h
      obtain ⟨k, pg⟩ := e
      by_cases hv : pg.name ∈ visited
      · simp only [deleteLoop, hv, if_true]
        exact ih _ _ h
      · simp only [deleteLoop, hv, if_false]
        refine ih _ _ ?_
        have ha := stopAndWait_aligned s pg.name h
        obtain ⟨g1, g2, g3⟩ := ha
        refine ⟨?_, ?_, ?_⟩
        · show akeys (aerase _ pg.name) = akeys (aerase _ pg.name)
          rw [akeys_aerase, akeys_aerase, g1]
        · intro e he
          exact g2 e (mem_aerase he)
        · intro e he
          exact g3 e (mem_aerase he)

theorem deleteLoop_keys_visited (visited : List String)
    (L : List (String × Program)) :
    ∀ (s : Supervisor) (eff : Effects),
      (∀ e ∈ s.pgMap, e.2.name = e.1) →
      (∀ e ∈ s.pgMap, e ∈ L ∨ e.2.name ∈ visited) →
      ∀ e ∈ (deleteLoop visited s eff L).1.pgMap, e.2.name ∈ visited := by
  induction L with
  | nil =>
      intro s eff _ hall e he
      rcases hall e he with hin | hv
      · exact absurd hin (List.not_mem_nil e)
      · exact hv
  | cons hd rest ih =>
      intro s eff hnamed hall
      obtain ⟨k, pg⟩ := hd
      by_cases hv : pg.name ∈ visited
      · simp only [deleteLoop, hv, if_true]
        refine ih s eff hnamed ?_
        intro e he
        rcases hall e he with hin | hv'
        · rcases List.mem_cons.mp hin with heq | hin'
          · subst heq; exact Or.inr hv
          · exact Or.inl hin'
        · exact Or.inr hv'
      · simp only [deleteLoop, hv, if_false]
        refine ih _ _ ?_ ?_
        · intro e he
          have he' : e ∈ s.pgMap := by
            have := mem_aerase (by
              have hpw : (s.stopAndWait pg.name).sup.pgMap = s.pgMap :=
                stopAndWait_pgMap s pg.name
              rw [hpw] at he
              exact he)
            exact this
          exact hnamed e he'
        · intro e he
          have hpw : (s.stopAndWait pg.name).sup.pgMap = s.pgMap :=
            stopAndWait_pgMap s pg.name
          rw [hpw] at he
          have he1 : e ∈ s.pgMap := mem_aerase he
          have hne : e.1 ≠ pg.name := by
            have := List.of_mem_filter he
            simpa using this
          rcases hall e he1 with hin | hv'
          · rcases List.mem_cons.mp hin with heq | hin'
            · exfalso
              subst heq
              exact hne (hnamed _ he1).symm
            · exact Or.inl hin'
          · exact Or.inr hv'

theorem Effects.app_nil (e : Effects) : e.app Effects.nil = e := by
  obtain ⟨ev, op⟩ := e
  simp [Effects.app, Effects.nil]

theorem addOrUpdate_noop (s : Supervisor) (pg : Program)
    (h : alookup s.pgMap pg.name = some pg) :
    (s.addOrUpdateProgram pg).sup = s ∧
      (s.addOrUpdateProgram pg).eff = Effects.nil := by
  unfold Supervisor.addOrUpdateProgram
  cases pg.check with
  | error e => exact ⟨rfl, rfl⟩
  | ok u => simp [h]

theorem loadLoop_noop (pgs : List Program) :
    ∀ (s : Supervisor) (eff : Effects),
      (∀ pg ∈ pgs, alookup s.pgMap pg.name = some pg) →
      loadLoop s eff pgs = (s, eff) := by
  induction pgs with
  | nil => intro s eff _; rfl
  | cons pg rest ih =>
      intro s eff hall
      have h1 := addOrUpdate_noop s pg (hall pg (List.mem_cons_self _ _))
      show loadLoop (s.addOrUpdateProgram pg).sup
        (eff.app (s.addOrUpdateProgram pg).eff) rest = (s, eff)
      rw [h1.1, h1.2, Effects.app_nil]
      exact ih s eff (fun pg' hp => hall pg' (List.mem_cons_of_mem _ hp))

theorem deleteLoop_noop (visited : List String)
    (L : List (String × Program)) :
    ∀ (s : Supervisor) (eff : Effects),
      (∀ e ∈ L, e.2.name ∈ visited) →
      deleteLoop visited s eff L = (s, eff) := by
  induction L with
  | nil => intro s eff _; rfl
  | cons e rest ih =>
      intro s eff hall
      obtain ⟨k, pg⟩ := e
      have hv : pg.name ∈ visited := hall (k, pg) (List.mem_cons_self _ _)
      simp only [deleteLoop, hv, if_true]
      exact ih s eff (fun e' he => hall e' (List.mem_cons_of_mem _ he))

theorem findDup_eq_none_sound :
    ∀ (visited ns : List String), findDup visited ns = none →
      ns.Nodup ∧ ∀ n ∈ ns, n ∉ visited := by
  intro visited ns
  induction ns generalizing visited with
  | nil => intro _; exact ⟨List.nodup_nil, by intro n hn; simp at hn⟩
  | cons n rest ih =>
      intro h
      by_cases hv : n ∈ visited
      · simp [findDup, hv] at h
      · simp only [findDup, hv, if_false] at h
        obtain ⟨hnd, hnotin⟩ := ih (n :: visited) h
        refine ⟨List.nodup_cons.mpr ⟨?_, hnd⟩, ?_⟩
        · intro hc
          exact hnotin n hc (List.mem_cons_self _ _)
        · intro m hm
          rcases List.mem_cons.mp hm with rfl | hm'
          · exact hv
          · intro hc
            exact hnotin m hm' (List.mem_cons_of_mem _ hc)

theorem findDup_none_of_nodup :
    ∀ (visited ns : List String), ns.Nodup → (∀ n ∈ ns, n ∉ visited) →
      findDup visited ns = none := by
  intro visited ns
  induction ns generalizing visited with
  | nil => intro _ _; rfl
  | cons n rest ih =>
      intro hnd hnotin
      have hv : n ∉ visited := hnotin n (List.mem_cons_self _ _)
      simp only [findDup, hv, if_false]
      refine ih (n :: visited) (List.nodup_cons.mp hnd).2 ?_
      intro m hm hc
      rcases List.mem_cons.mp hc with rfl | hc'
      · exact (List.nodup_cons.mp hnd).1 hm
      · exact hnotin m (List.mem_cons_of_mem _ hm) hc'

theorem stopWaitLoop_sound (running : Nat → Bool) :
    ∀ (fuel i k : Nat), stopWaitLoop running i fuel = some k →
      running k = false := by
  intro fuel
  induction fuel with
  | zero => intro i k h; simp [stopWaitLoop] at h
  | succ n ih =>
      intro i k h
      by_cases hr : running i
      · simp only [stopWaitLoop, hr, if_true] at h
        exact ih (i + 1) k h
      · simp only [stopWaitLoop, hr, if_false] at h
        rw [← Option.some.injEq] at h
        cases h
        simpa using hr

theorem programs_map_name (s : Supervisor)
    (hnamed : ∀ e ∈ s.pgMap, e.2.name = e.1)
    (hmem : ∀ n ∈ s.names, n ∈ akeys s.pgMap) :
    s.programs.map Program.name = s.names := by
  unfold Supervisor.programs
  rw [List.map_map]
  apply List.map_congr_left ?_ |>.trans (List.map_id s.names)
  intro n hn
  obtain ⟨v, hv⟩ := alookup_isSome_of_mem_akeys (hmem n hn)
  have := hnamed (n, v) (alookup_mem hv)
  simp only [Function.comp, hv, Option.getD_some]
  exact this

theorem loadDB_err_shape (s : Supervisor) (fileData : Option String)
    (unmarshal : String → Except String (List Program)) (e : String)
    (h : readConfigFromDB fileData unmarshal = Except.error e) :
    s.loadDB fileData unmarshal = ⟨some e, s, Effects.nil⟩ := by
  unfold Supervisor.loadDB
  rw [h]

theorem loadDB_ok_shape (s : Supervisor) (fileData : Option String)
    (unmarshal : String → Except String (List Program)) (pgs : List Program)
    (h : readConfigFromDB fileData unmarshal = Except.ok pgs) :
    s.loadDB fileData unmarshal =
      ⟨none,
       (deleteLoop (pgs.map Program.name)
         { (loadLoop s Effects.nil pgs).1 with names := pgs.map Program.name }
         (loadLoop s Effects.nil pgs).2
         (loadLoop s Effects.nil pgs).1.pgMap).1,
       (deleteLoop (pgs.map Program.name)
         { (loadLoop s Effects.nil pgs).1 with names := pgs.map Program.name }
         (loadLoop s Effects.nil pgs).2
         (loadLoop s Effects.nil pgs).1.pgMap).2⟩ := by
  unfold Supervisor.loadDB
  rw [h]

theorem foldl_lockStep_id (l : List RegAction) :
    ∀ (d : Int), (∀ a ∈ l, ∀ d', lockStep d' a = d') → l.foldl lockStep d = d := by
  induction l with
  | nil => intro d _; rfl
  | cons a t ih =>
      intro d h
      show List.foldl lockStep (lockStep d a) t = d
      rw [h a (List.mem_cons_self _ _) d]
      exact ih d (fun a' ha' => h a' (List.mem_cons_of_mem _ ha'))

/-! ### Concrete fixtures for witnesses and counterexamples -/

/-- A valid program spec. -/
def pgA : Program := ⟨"a", "run", "/", false, 0⟩

/-- A different valid spec with the same name, for the update path. -/
def pgA2 : Program := ⟨"a", "run --other", "/", false, 0⟩

/-- A spec that fails validation: its command is empty. -/
def badPg : Program := ⟨"bad", "", "/", false, 0⟩

/-- A registry holding exactly `pgA` with a stopped controller. -/
def supA : Supervisor := ⟨["a"], [("a", pgA)], [("a", NewProcess pgA)]⟩

/-- A registry holding exactly `pgA` with its controller in the Running state. -/
def supARunning : Supervisor :=
  ⟨["a"], [("a", pgA)], [("a", ⟨"a", FSMState.running, pgA⟩)]⟩

/-- An unmarshaller whose output is the empty desired list. -/
def umEmpty : String → Except String (List Program) := fun _ => Except.ok []

/-- An unmarshaller whose output is a single invalid spec. -/
def umBad : String → Except String (List Program) := fun _ => Except.ok [badPg]

/-- An unmarshaller whose output is the desired list `[pgA]`. -/
def umA : String → Except String (List Program) := fun _ => Except.ok [pgA]

/-- An unmarshaller whose output carries a duplicated name. -/
def umDup : String → Except String (List Program) :=
  fun _ => Except.ok [pgA, pgA2]

/-! ### Claims -/

/-- Claim C10: for every name that is not a key of the controller map,
stopAndWait returns the error "No such program" with the registry unchanged
and no controller event or broadcast event emitted. -/
theorem C10_stopAndWait_notFound (s : Supervisor) (name : String)
    (h : alookup s.procMap name = none) :
    s.stopAndWait name = ⟨some "No such program", s, Effects.nil⟩ := by
  unfold Supervisor.stopAndWait
  rw [h]

/-- Witness for C10 at the empty registry and the name "x". -/
theorem C10_stopAndWait_notFound_witness :
    alookup Supervisor.empty.procMap "x" = none ∧
      Supervisor.empty.stopAndWait "x" =
        ⟨some "No such program", Supervisor.empty, Effects.nil⟩ :=
  ⟨rfl, C10_stopAndWait_notFound Supervisor.empty "x" rfl⟩

/-- Claim C3: for every name registered in the controller map, stopAndWait
never reports not-found; it returns success at wakeup k only if IsRunning was
false at that wakeup; and if the controller is not running when called it
returns success immediately, issuing no controller event. -/
theorem C3_stopAndWait_postcondition (procMap : List (String × Process))
    (name : String) (running : Nat → Bool) (fuel : Nat) (p : Process)
    (h : alookup procMap name = some p) :
    (stopAndWaitObs procMap name running fuel).1 ≠ StopWaitOutcome.notFound ∧
    (∀ k, (stopAndWaitObs procMap name running fuel).1 =
        StopWaitOutcome.stoppedAt k → running k = false) ∧
    (p.isRunning = false →
      stopAndWaitObs procMap name running fuel =
        (StopWaitOutcome.immediate, [])) := by
  unfold stopAndWaitObs
  rw [h]
  by_cases hr : p.isRunning
  · simp only [hr, if_true]
    cases hl : stopWaitLoop running 0 fuel with
    | none =>
        refine ⟨by simp, ?_, fun hc => absurd hc (by decide)⟩
        intro k hk
        simp at hk
    | some j =>
        refine ⟨by simp, ?_, fun hc => absurd hc (by decide)⟩
        intro k hk
        simp only [StopWaitOutcome.stoppedAt.injEq] at hk
        subst hk
        exact stopWaitLoop_sound running fuel 0 _ hl
  · simp only [hr, if_false]
    exact ⟨by simp, by intro k hk; simp at hk, fun _ => rfl⟩

/-- Witness for C3 at a one-entry controller map whose controller is stopped. -/
theorem C3_stopAndWait_postcondition_witness :
    alookup supA.procMap "a" = some (NewProcess pgA) ∧
    ((stopAndWaitObs supA.procMap "a" (fun _ => false) 1).1 ≠
        StopWaitOutcome.notFound ∧
      (∀ k, (stopAndWaitObs supA.procMap "a" (fun _ => false) 1).1 =
          StopWaitOutcome.stoppedAt k → (fun _ => false : Nat → Bool) k = false) ∧
      ((NewProcess pgA).isRunning = false →
        stopAndWaitObs supA.procMap "a" (fun _ => false) 1 =
          (StopWaitOutcome.immediate, []))) :=
  ⟨by decide,
   C3_stopAndWait_postcondition supA.procMap "a" (fun _ => false) 1
     (NewProcess pgA) (by decide)⟩

/-- Claim C8: saveDB hands the serializer exactly the stored specs in
name-sequence order and leaves the registry state unchanged whether
serialization or the write succeeds or fails. -/
theorem C8_saveDB_frame (s : Supervisor)
    (marshal : List Program → Except String String) (writeOk : Bool) :
    (s.saveDB marshal writeOk).sup = s ∧
    (s.saveDB marshal writeOk).written =
      (marshal (s.names.map
        (fun n => (alookup s.pgMap n).getD Program.zero))).toOption := by
  unfold Supervisor.saveDB Supervisor.programs
  cases marshal (s.names.map (fun n => (alookup s.pgMap n).getD Program.zero)) with
  | error e => exact ⟨rfl, rfl⟩
  | ok data => exact ⟨rfl, rfl⟩

/-- Claim C9, counterexample: in the transcribed goroutine of the update path,
the two registry map assignments (the map swap) execute at lock depth 0 — the
trace contains no lock acquisition at all — refuting that the swap is
performed while holding the registry lock. -/
theorem C9_counterexample :
    (asyncUpdateTrace "a" true).get? 1 = some (RegAction.swapProcMap "a") ∧
    (asyncUpdateTrace "a" true).get? 2 = some (RegAction.swapPgMap "a") ∧
    lockDepthAt (asyncUpdateTrace "a" true) 1 = 0 ∧
    lockDepthAt (asyncUpdateTrace "a" true) 2 = 0 ∧
    RegAction.lockAcquire ∉ asyncUpdateTrace "a" true := by
  decide

/-- Claim C9, amended: the asynchronous update path performs the registry map
swap without the registry lock — the goroutine body contains the two map
assignments and the stop-and-wait but acquires and releases the registry
mutex nowhere, so every action in it runs at lock depth 0. -/
theorem C9_amended_swap_unlocked (name : String) (isRunning : Bool) (i : Nat) :
    RegAction.lockAcquire ∉ asyncUpdateTrace name isRunning ∧
    RegAction.lockRelease ∉ asyncUpdateTrace name isRunning ∧
    RegAction.swapProcMap name ∈ asyncUpdateTrace name isRunning ∧
    RegAction.swapPgMap name ∈ asyncUpdateTrace name isRunning ∧
    RegAction.stopAndWaitCall name ∈ asyncUpdateTrace name isRunning ∧
    lockDepthAt (asyncUpdateTrace name isRunning) i = 0 := by
  have hstep : ∀ a ∈ asyncUpdateTrace name isRunning, ∀ d', lockStep d' a = d' := by
    intro a ha d'
    cases isRunning <;> simp [asyncUpdateTrace] at ha <;>
      rcases ha with rfl | rfl | rfl | rfl <;> rfl
  refine ⟨?_, ?_, ?_, ?_, ?_, ?_⟩
  · intro hc
    have := hstep _ hc 0
    simp [lockStep] at this
  · intro hc
    have := hstep _ hc 0
    simp [lockStep] at this
  · cases isRunning <;> simp [asyncUpdateTrace]
  · cases isRunning <;> simp [asyncUpdateTrace]
  · cases isRunning <;> simp [asyncUpdateTrace]
  · unfold lockDepthAt
    exact foldl_lockStep_id _ 0
      (fun a ha => hstep a (List.take_subset i _ ha))

/-- Claim C2: loading a desired list containing two specs with the same name
returns an error and mutates nothing: the registry equals its pre-load value
and no broadcast event or controller event is emitted. -/
theorem C2_duplicate_load_atomic (s : Supervisor) (fileData : Option String)
    (unmarshal : String → Except String (List Program)) (pgs : List Program)
    (h1 : unmarshal (fileData.getD "") = Except.ok pgs)
    (h2 : ¬ (pgs.map Program.name).Nodup) :
    (s.loadDB fileData unmarshal).err.isSome = true ∧
    (s.loadDB fileData unmarshal).sup = s ∧
    (s.loadDB fileData unmarshal).eff = Effects.nil := by
  cases hfd : findDup [] (pgs.map Program.name) with
  | none => exact absurd (findDup_eq_none_sound [] _ hfd).1 h2
  | some d =>
      have hrc : readConfigFromDB fileData unmarshal =
          Except.error ("Duplicated program name: " ++ d) := by
        simp only [readConfigFromDB, h1, hfd]
      rw [loadDB_err_shape s fileData unmarshal _ hrc]
      exact ⟨rfl, rfl, rfl⟩

/-- Witness for C2: loading the two same-named specs pgA and pgA2 into the
empty registry fails and changes nothing. -/
theorem C2_duplicate_load_atomic_witness :
    umDup ((some "x").getD "") = Except.ok [pgA, pgA2] ∧
    ¬ ([pgA, pgA2].map Program.name).Nodup ∧
    ((Supervisor.empty.loadDB (some "x") umDup).err.isSome = true ∧
      (Supervisor.empty.loadDB (some "x") umDup).sup = Supervisor.empty ∧
      (Supervisor.empty.loadDB (some "x") umDup).eff = Effects.nil) :=
  ⟨rfl, by decide,
   C2_duplicate_load_atomic Supervisor.empty (some "x") umDup [pgA, pgA2]
     rfl (by decide)⟩

/-- Claim C6, counterexample: a file-read failure during Load (fileData =
none) is not surfaced: with an empty-config unmarshal, loadDB over a registry
holding pgA returns nil error — and moreover reconciles to the empty config,
deleting the stored program. -/
theorem C6_counterexample :
    (supA.loadDB none umEmpty).err = none ∧
    (supA.loadDB none umEmpty).sup.names = [] ∧
    alookup (supA.loadDB none umEmpty).sup.pgMap "a" = none := by
  decide

/-- Claim C6, amended: unmarshal failures during Load are returned with the
registry untouched; saveDB never mutates the registry and surfaces both
marshal failures and write failures; a file-read failure during Load is not
surfaced — the code substitutes empty file contents and proceeds. -/
theorem C6_amended_persistence_errors (s : Supervisor)
    (fileData : Option String)
    (unmarshal : String → Except String (List Program))
    (marshal : List Program → Except String String) (writeOk : Bool)
    (e : String) :
    (unmarshal (fileData.getD "") = Except.error e →
      s.loadDB fileData unmarshal = ⟨some e, s, Effects.nil⟩) ∧
    (s.saveDB marshal writeOk).sup = s ∧
    (marshal s.programs = Except.error e →
      (s.saveDB marshal writeOk).err = some e) ∧
    (writeOk = false → (s.saveDB marshal writeOk).err.isSome = true) ∧
    s.loadDB none unmarshal = s.loadDB (some "") unmarshal := by
  refine ⟨?_, ?_, ?_, ?_, rfl⟩
  · intro h
    have hrc : readConfigFromDB fileData unmarshal = Except.error e := by
      simp only [readConfigFromDB, h]
    exact loadDB_err_shape s fileData unmarshal e hrc
  · unfold Supervisor.saveDB
    cases marshal s.programs with
    | error e' => rfl
    | ok data => rfl
  · intro h
    unfold Supervisor.saveDB
    rw [h]
  · intro h
    subst h
    unfold Supervisor.saveDB
    cases marshal s.programs with
    | error e' => rfl
    | ok data => rfl

/-- Witness for C6 amended, at a failing unmarshaller, a failing marshaller
and a failing write over the registry supA. -/
theorem C6_amended_persistence_errors_witness :
    ((fun _ => Except.error "boom" : String → Except String (List Program))
        ((some "x").getD "") = Except.error "boom" →
      supA.loadDB (some "x") (fun _ => Except.error "boom") =
        ⟨some "boom", supA, Effects.nil⟩) ∧
    (supA.saveDB (fun _ => Except.error "boom") false).sup = supA ∧
    ((fun _ => Except.error "boom" : List Program → Except String String)
        supA.programs = Except.error "boom" →
      (supA.saveDB (fun _ => Except.error "boom") false).err = some "boom") ∧
    (false = false →
      (supA.saveDB (fun _ => Except.error "boom") false).err.isSome = true) ∧
    supA.loadDB none (fun _ => Except.error "boom") =
      supA.loadDB (some "") (fun _ => Except.error "boom") :=
  C6_amended_persistence_errors supA (some "x") (fun _ => Except.error "boom")
    (fun _ => Except.error "boom") false "boom"

/-- Claim C4: on an already-registered name with a changed spec,
addOrUpdateProgram succeeds, broadcasts "<name> update" first, replaces the
stored spec with the new one and the controller with a freshly constructed
one for the new spec, and records the old controller's IsRunning so that a
StartEvent goes to the new controller exactly when the old one had been
running (a StopEvent having been issued to the old one in that case). -/
theorem C4_update_path (s : Supervisor) (pg origPg : Program)
    (origProc : Process)
    (hc : pg.check = Except.ok ())
    (hpg : alookup s.pgMap pg.name = some origPg)
    (hne : origPg ≠ pg)
    (hproc : alookup s.procMap pg.name = some origProc)
    (hname : origProc.name = pg.name) :
    (s.addOrUpdateProgram pg).err = none ∧
    (s.addOrUpdateProgram pg).eff.events.head? = some (pg.name ++ " update") ∧
    alookup (s.addOrUpdateProgram pg).sup.pgMap pg.name = some pg ∧
    alookup (s.addOrUpdateProgram pg).sup.procMap pg.name =
      some (NewProcess pg) ∧
    ((pg.name, PEvent.startEvent) ∈ (s.addOrUpdateProgram pg).eff.ops ↔
      origProc.isRunning = true) ∧
    (origProc.isRunning = true →
      (pg.name, PEvent.stopEvent) ∈ (s.addOrUpdateProgram pg).eff.ops) := by
  by_cases hr : origProc.isRunning <;>
    simp [Supervisor.addOrUpdateProgram, hc, hpg, hne, hproc, hname,
      Supervisor.stopAndWait, hr, alookup_ainsert_self, Effects.nil]

/-- Witness for C4: updating pgA to pgA2 while its controller is running. -/
theorem C4_update_path_witness :
    pgA2.check = Except.ok () ∧
    alookup supARunning.pgMap pgA2.name = some pgA ∧
    pgA ≠ pgA2 ∧
    alookup supARunning.procMap pgA2.name =
      some ⟨"a", FSMState.running, pgA⟩ ∧
    (⟨"a", FSMState.running, pgA⟩ : Process).name = pgA2.name ∧
    ((supARunning.addOrUpdateProgram pgA2).err = none ∧
      (supARunning.addOrUpdateProgram pgA2).eff.events.head? =
        some (pgA2.name ++ " update") ∧
      alookup (supARunning.addOrUpdateProgram pgA2).sup.pgMap pgA2.name =
        some pgA2 ∧
      alookup (supARunning.addOrUpdateProgram pgA2).sup.procMap pgA2.name =
        some (NewProcess pgA2) ∧
      ((pgA2.name, PEvent.startEvent) ∈
          (supARunning.addOrUpdateProgram pgA2).eff.ops ↔
        (⟨"a", FSMState.running, pgA⟩ : Process).isRunning = true) ∧
      ((⟨"a", FSMState.running, pgA⟩ : Process).isRunning = true →
        (pgA2.name, PEvent.stopEvent) ∈
          (supARunning.addOrUpdateProgram pgA2).eff.ops)) :=
  ⟨rfl, by decide, by decide, by decide, by decide,
   C4_update_path supARunning pgA2 pgA ⟨"a", FSMState.running, pgA⟩
     rfl (by decide) (by decide) (by decide) (by decide)⟩

/-- Claim C1, counterexample: loading a desired list whose single entry fails
validation leaves that entry's name in the name sequence with no spec and no
controller — the three key sets are not identical after loadDB completes. -/
theorem C1_counterexample :
    (Supervisor.empty.loadDB (some "cfg") umBad).err = none ∧
    (Supervisor.empty.loadDB (some "cfg") umBad).sup.names = ["bad"] ∧
    alookup (Supervisor.empty.loadDB (some "cfg") umBad).sup.pgMap "bad" =
      none ∧
    alookup (Supervisor.empty.loadDB (some "cfg") umBad).sup.procMap "bad" =
      none := by
  decide

/-- Claim C1, amended: outside an in-flight update, the key sets of pgMap and
procMap are identical, and after any loadDB every key of pgMap appears in the
name sequence; the name sequence, however, can strictly contain the key sets,
because a desired entry that fails validation leaves its name in the sequence
with no spec and no controller. -/
theorem C1_amended_keyset (s : Supervisor) (fileData : Option String)
    (unmarshal : String → Except String (List Program))
    (h1 : mapsAligned s)
    (h2 : ∀ k ∈ akeys s.pgMap, k ∈ s.names) :
    akeys (s.loadDB fileData unmarshal).sup.pgMap =
      akeys (s.loadDB fileData unmarshal).sup.procMap ∧
    ∀ k ∈ akeys (s.loadDB fileData unmarshal).sup.pgMap,
      k ∈ (s.loadDB fileData unmarshal).sup.names := by
  cases hr : readConfigFromDB fileData unmarshal with
  | error e =>
      rw [loadDB_err_shape s fileData unmarshal e hr]
      exact ⟨h1.1, h2⟩
  | ok pgs =>
      rw [loadDB_ok_shape s fileData unmarshal pgs hr]
      have ha1 : mapsAligned (loadLoop s Effects.nil pgs).1 :=
        loadLoop_aligned pgs s Effects.nil h1
      have ha2 : mapsAligned
          { (loadLoop s Effects.nil pgs).1 with
              names := pgs.map Program.name } := ha1
      constructor
      · exact (deleteLoop_aligned _ _ _ _ ha2).1
      · intro k hk
        obtain ⟨e, he, rfl⟩ := List.mem_map.mp hk
        have hvis : e.2.name ∈ pgs.map Program.name :=
          deleteLoop_keys_visited (pgs.map Program.name)
            ((loadLoop s Effects.nil pgs).1.pgMap)
            { (loadLoop s Effects.nil pgs).1 with
                names := pgs.map Program.name }
            (loadLoop s Effects.nil pgs).2
            ha2.2.1 (fun e' he' => Or.inl he') e he
        have hnm := (deleteLoop_aligned _ _ _ _ ha2).2.1 e he
        rw [deleteLoop_names]
        show e.1 ∈ pgs.map Program.name
        rw [← hnm]
        exact hvis

/-- Witness for C1 amended at the well-formed registry supA reloaded with the
one-entry desired list [pgA]. -/
theorem C1_amended_keyset_witness :
    mapsAligned supA ∧ (∀ k ∈ akeys supA.pgMap, k ∈ supA.names) ∧
    (akeys (supA.loadDB (some "x") umA).sup.pgMap =
        akeys (supA.loadDB (some "x") umA).sup.procMap ∧
      ∀ k ∈ akeys (supA.loadDB (some "x") umA).sup.pgMap,
        k ∈ (supA.loadDB (some "x") umA).sup.names) := by
  have h1 : mapsAligned supA := ⟨by decide, by decide, by decide⟩
  have h2 : ∀ k ∈ akeys supA.pgMap, k ∈ supA.names := by decide
  exact ⟨h1, h2, C1_amended_keyset supA (some "x") umA h1 h2⟩

/-- Claim C5, counterexample: the sole desired entry fails Check(), yet after
a successful loadDB the name sequence is ["bad"], not the empty sequence that
"desired names minus failed entries" would give. -/
theorem C5_counterexample :
    badPg.check = Except.error "program command empty" ∧
    (Supervisor.empty.loadDB (some "cfg") umBad).err = none ∧
    (Supervisor.empty.loadDB (some "cfg") umBad).sup.names = ["bad"] :=
  ⟨rfl, by decide, by decide⟩

/-- Claim C5, amended: after a successful loadDB the name sequence equals
exactly the sequence of names of the desired list — including the entries
that failed validation — in the desired list's order. -/
theorem C5_amended_names (s : Supervisor) (fileData : Option String)
    (unmarshal : String → Except String (List Program)) (pgs : List Program)
    (h : readConfigFromDB fileData unmarshal = Except.ok pgs) :
    (s.loadDB fileData unmarshal).err = none ∧
    (s.loadDB fileData unmarshal).sup.names = pgs.map Program.name := by
  rw [loadDB_ok_shape s fileData unmarshal pgs h]
  exact ⟨rfl, by rw [deleteLoop_names]⟩

/-- Witness for C5 amended: reloading supA with the desired list [pgA]. -/
theorem C5_amended_names_witness :
    readConfigFromDB (some "x") umA = Except.ok [pgA] ∧
    ((supA.loadDB (some "x") umA).err = none ∧
      (supA.loadDB (some "x") umA).sup.names = [pgA].map Program.name) :=
  ⟨rfl, C5_amended_names supA (some "x") umA [pgA] rfl⟩

/-- Claim C7: reloading a well-formed registry with a desired list that is
deep-field-equal, entry for entry, to the currently stored specs succeeds and
is a complete no-op: the registry is unchanged and no broadcast event and no
controller operation is emitted. -/
theorem C7_idempotent_reload (s : Supervisor) (fileData : Option String)
    (unmarshal : String → Except String (List Program))
    (hwf : s.wf)
    (hum : unmarshal (fileData.getD "") = Except.ok s.programs) :
    s.loadDB fileData unmarshal = ⟨none, s, Effects.nil⟩ := by
  obtain ⟨⟨hkeq, hpnamed, hprnamed⟩, hn1, hn2, hnd⟩ := hwf
  have hmapname : s.programs.map Program.name = s.names :=
    programs_map_name s hpnamed hn1
  have hdupnone : findDup [] (s.programs.map Program.name) = none := by
    rw [hmapname]
    exact findDup_none_of_nodup [] s.names hnd (fun n _ => List.not_mem_nil n)
  have hrc : readConfigFromDB fileData unmarshal = Except.ok s.programs := by
    simp only [readConfigFromDB, hum, hdupnone]
  have hlookup : ∀ pg ∈ s.programs, alookup s.pgMap pg.name = some pg := by
    intro pg hpg
    obtain ⟨n, hn, heq⟩ := List.mem_map.mp hpg
    obtain ⟨v, hv⟩ := alookup_isSome_of_mem_akeys (hn1 n hn)
    rw [hv] at heq
    simp at heq
    subst heq
    have hvn : v.name = n := hpnamed (n, v) (alookup_mem hv)
    rw [hvn]
    exact hv
  have hload : loadLoop s Effects.nil s.programs = (s, Effects.nil) :=
    loadLoop_noop s.programs s Effects.nil hlookup
  have hdel : deleteLoop s.names s Effects.nil s.pgMap = (s, Effects.nil) := by
    apply deleteLoop_noop
    intro e he
    rw [hpnamed e he]
    exact hn2 e.1 (List.mem_map.mpr ⟨e, he, rfl⟩)
  rw [loadDB_ok_shape s fileData unmarshal s.programs hrc, hmapname, hload]
  show RegResult.mk none
      (deleteLoop s.names s Effects.nil s.pgMap).1
      (deleteLoop s.names s Effects.nil s.pgMap).2 = ⟨none, s, Effects.nil⟩
  rw [hdel]

/-- Witness for C7: reloading supA with the deep-equal desired list [pgA]
changes nothing and emits nothing. -/
theorem C7_idempotent_reload_witness :
    supA.wf ∧ umA ((some "x").getD "") = Except.ok supA.programs ∧
    supA.loadDB (some "x") umA = ⟨none, supA, Effects.nil⟩ := by
  have hwf : supA.wf :=
    ⟨⟨by decide, by decide, by decide⟩, by decide, by decide, by decide⟩
  exact ⟨hwf, rfl, C7_idempotent_reload supA (some "x") umA hwf rfl⟩

end Gosuv
